import Mathlib

/-!
Verification of the training orchestration engine of the quickdraw
repository (src/train.py, src/dataset.py, src/utils.py).

The development is a shallow embedding: the state mutated by the epoch
loop of `main` in src/train.py becomes an explicit `TrainState`, one
epoch of the loop becomes the pure step function `epochStep`, and a run
is a fold of `epochStep` over the per-epoch observations (the validation
mAP score returned by `evaluate` on the rotated validation split, and
the number of mini-batches of the epoch's training pass).  Quantities
produced by external collaborators (the neural network, the loss, the
metric kernels, sklearn's `train_test_split`) enter as parameters or as
input data, exactly as the spec's §1 prescribes.  Python floats are
embedded as rationals, Python ints as integers; Python code that can
raise (division by zero, `list.remove` on a missing element, `min` of an
empty dict, indexing past a list) returns `Option`.
-/

namespace Quickdraw

/-! ## The epoch/cycle state machine of src/train.py `main` -/

/-- Configuration fields of src/train.py `main` that the epoch/cycle
state machine reads (all are `int` or `float` CLI arguments). -/
structure TrainConfig where
  sgdrCycleEpochs : ℤ
  sgdrCycleEpochsMult : ℚ
  sgdrCycleEndProlongation : ℤ
  sgdrCycleEndPatience : ℤ
  initialEnsembleModelIndex : ℕ
deriving DecidableEq

/-- Observations of one epoch of the loop: the validation mAP average
that `evaluate` returns for the epoch (line 419) and the number of
mini-batches of the epoch's training pass (the iterations of the loop at
line 377). -/
structure EpochInput where
  score : ℚ
  nbatches : ℕ
deriving DecidableEq

/-- The loop state of src/train.py `main` (lines 305-453) restricted to
the fields the claims are about.  `globalBest` and `cycleBest` embed the
floats `global_val_mapk_best_avg` and `sgdr_cycle_val_mapk_best_avg`,
with `none` standing for their initial value `float("-inf")`.
`modelPth` is the content of the file `model.pth`: `none` means the file
does not exist, `some w` that it holds weights `w`, where `w = none`
tags the initial weights saved at line 303 and `w = some e` the weights
saved at the end of epoch `e` (0-based loop index). -/
structure TrainState where
  epoch : ℕ
  globalBest : Option ℚ
  cycleBest : Option ℚ
  sgdrIterations : ℕ
  currentCycleEpochs : ℤ
  nextCycleEnd : ℤ
  ensembleModelIndex : ℕ
  sgdrCycleCount : ℕ
  epochOfLastImproval : ℕ
  modelPth : Option (Option ℕ)
  lastCkptSaved : Bool
  lastReset : Bool
deriving DecidableEq

/-- Comparison `b < s` of Python where `b` may be `float("-inf")`
(`none`): `-inf < s` is always true. -/
def ltInf : Option ℚ → ℚ → Bool
  | none, _ => true
  | some b, s => decide (b < s)

/-- Python's `int()` applied to a rational: truncation toward zero,
computed from the reduced numerator and denominator. -/
def pyTrunc (q : ℚ) : ℤ :=
  if 0 ≤ q.num then Int.ofNat (q.num.toNat / q.den)
  else -Int.ofNat ((-q.num).toNat / q.den)

/-- Exact rational multiplication, written out so that it evaluates by
kernel reduction (`Rat.mul` is irreducible); `ratMul_eq_mul` below
identifies it with `*`. -/
def ratMul (a b : ℚ) : ℚ :=
  mkRat (a.num * b.num) (a.den * b.den)

/-- The embedding of an integer as a rational, in reducible form;
`intToRat_eq_cast` below identifies it with the coercion. -/
def intToRat (n : ℤ) : ℚ :=
  mkRat n 1

/-- State right before the first loop iteration (lines 303-331 of
src/train.py): `model.pth` has just been written unconditionally at
line 303, both best scores are `float("-inf")`, and
`sgdr_next_cycle_end_epoch = sgdr_cycle_epochs + sgdr_cycle_end_prolongation`. -/
def initState (cfg : TrainConfig) : TrainState where
  epoch := 0
  globalBest := none
  cycleBest := none
  sgdrIterations := 0
  currentCycleEpochs := cfg.sgdrCycleEpochs
  nextCycleEnd := cfg.sgdrCycleEpochs + cfg.sgdrCycleEndProlongation
  ensembleModelIndex := cfg.initialEnsembleModelIndex
  sgdrCycleCount := 0
  epochOfLastImproval := 0
  modelPth := some none
  lastCkptSaved := false
  lastReset := false

/-- The epoch's training pass (lines 377-408): `sgdr_iterations` grows
by one per mini-batch. -/
def trainPass (st : TrainState) (x : EpochInput) : TrainState :=
  { st with sgdrIterations := st.sgdrIterations + x.nbatches }

/-- Lines 425-428: per-cycle checkpoint decision
(`model_improved_within_sgdr_cycle`). -/
def cycleCheck (st : TrainState) (s : ℚ) : TrainState :=
  if ltInf st.cycleBest s then { st with cycleBest := some s } else st

/-- Lines 430-436: best-ever checkpoint decision (`model_improved`):
on strict improvement `model.pth` is overwritten with the current
weights, the best score and the epoch of last improval are updated and
`ckpt_saved` is set. -/
def globalCheck (st : TrainState) (s : ℚ) : TrainState :=
  if ltInf st.globalBest s then
    { st with modelPth := some (some st.epoch), globalBest := some s,
              epochOfLastImproval := st.epoch, lastCkptSaved := true }
  else { st with lastCkptSaved := false }

/-- Lines 370-436, the part of one iteration before the restart test. -/
def evalPhase (st : TrainState) (x : EpochInput) : TrainState :=
  globalCheck (cycleCheck (trainPass st x) x.score) x.score

/-- The SGDR restart condition of line 439:
`epoch + 1 >= sgdr_next_cycle_end_epoch and
 epoch - epoch_of_last_improval >= sgdr_cycle_end_patience`. -/
def restartCond (cfg : TrainConfig) (st : TrainState) : Bool :=
  decide ((st.epoch : ℤ) + 1 ≥ st.nextCycleEnd) &&
    decide ((st.epoch : ℤ) - (st.epochOfLastImproval : ℤ) ≥ cfg.sgdrCycleEndPatience)

/-- Lines 438-453: the SGDR restart.  When the condition fires the
in-cycle iteration counter resets, the cycle length is recomputed by
`int(current_sgdr_cycle_epochs * sgdr_cycle_epochs_mult)`, the next
cycle end is moved, the per-cycle checkpoint slot and the cycle count
advance, and the in-cycle best resets to `float("-inf")`. -/
def resetPhase (cfg : TrainConfig) (st : TrainState) : TrainState :=
  if restartCond cfg st then
    { st with
      sgdrIterations := 0
      currentCycleEpochs :=
        pyTrunc (ratMul (intToRat st.currentCycleEpochs) cfg.sgdrCycleEpochsMult)
      nextCycleEnd := (st.epoch : ℤ) + 1 +
        pyTrunc (ratMul (intToRat st.currentCycleEpochs) cfg.sgdrCycleEpochsMult) +
        cfg.sgdrCycleEndProlongation
      ensembleModelIndex := st.ensembleModelIndex + 1
      cycleBest := none
      sgdrCycleCount := st.sgdrCycleCount + 1
      lastReset := true }
  else { st with lastReset := false }

/-- One full iteration of the epoch loop of src/train.py `main`. -/
def epochStep (cfg : TrainConfig) (st : TrainState) (x : EpochInput) : TrainState :=
  let st1 := resetPhase cfg (evalPhase st x)
  { st1 with epoch := st1.epoch + 1 }

/-- The loop run over a list of per-epoch observations.  Early aborts
(lines 497-503) only cut the run short, so the state after any abort
point is the state after some prefix of the observations, and theorems
quantified over every list cover every abort point. -/
def runTrain (cfg : TrainConfig) (l : List EpochInput) : TrainState :=
  l.foldl (epochStep cfg) (initState cfg)

/-- Validation scores of a run's observations. -/
def scoresOf (l : List EpochInput) : List ℚ :=
  l.map EpochInput.score

/-- Maximum of a list of rationals, `none` for the empty list (the
reference value the best-ever bookkeeping is compared against). -/
def listMax : List ℚ → Option ℚ
  | [] => none
  | s :: t =>
    match listMax t with
    | none => some s
    | some m => some (max s m)

/-- Order on best scores where `none` is `-inf`. -/
def leInf : Option ℚ → Option ℚ → Prop
  | none, _ => True
  | some _, none => False
  | some a, some b => a ≤ b

/-- The checkpoint tag `w` names the epoch holding the highest
validation score observed in `l` (the earliest such epoch, since only
strict improvements overwrite), or the initial weights when no epoch
has run. -/
def HoldsBestEpoch (l : List EpochInput) : Option ℕ → Prop
  | none => l = []
  | some e => ∃ xe, l[e]? = some xe ∧ listMax (scoresOf l) = some xe.score ∧
      ∀ j xj, l[j]? = some xj → xj.score = xe.score → e ≤ j

/-! ## src/utils.py `read_categories` -/

/-- Python `list.remove` for strings: removes the first occurrence,
`none` models the `ValueError` raised when the element is missing. -/
def pyRemove (l : List String) (x : String) : Option (List String) :=
  if l.contains x then some (l.erase x) else none

/-- Embedding of src/utils.py lines 44-54: the category list with the fixed small
set of five names removed; fails (fatally) when one is missing. -/
def read_categories (lines : List String) : Option (List String) :=
  (pyRemove lines ("aircraft carrier")).bind fun c1 =>
    (pyRemove c1 ("knife")).bind fun c2 =>
      (pyRemove c2 ("lighter")).bind fun c3 =>
        (pyRemove c3 ("rifle")).bind fun c4 =>
          pyRemove c4 ("syringe")

/-! ## src/dataset.py `TrainData`: category exclusion and the split -/

/-- One record of a shard: the three parallel arrays `category`,
`drawing`, `recognized` at one index.  The drawing payload is opaque to
the pipeline and embedded as a tag. -/
structure SampleRecord where
  category : ℕ
  drawing : ℕ
  recognized : Bool
deriving DecidableEq

/-- Embedding of src/dataset.py lines 112-130: the exclusion list of category
names, verbatim. -/
def words_to_exclude : List String :=
  ["alarm clock", "angel", "anvil", "apple", "bandage",
   "baseball bat", "bee", "binoculars", "book", "bowtie", "butterfly",
   "cactus", "camel", "camera", "carrot", "castle", "chair", "clock",
   "computer", "crab", "crown", "cruise ship", "diamond", "donut",
   "drill", "ear", "envelope", "eye", "eyeglasses", "fish",
   "flashlight", "flower", "fork", "giraffe", "hand", "harp",
   "headphones", "helicopter", "hourglass", "house plant",
   "ice cream", "jacket", "jail", "key", "ladder", "lighthouse",
   "lightning", "lollipop", "megaphone", "mountain", "mushroom",
   "octopus", "palm tree", "pants", "paper clip", "parachute",
   "pineapple", "popsicle", "postcard", "power outlet", "rain",
   "rainbow", "rhinoceros", "rollerskates", "sailboat", "saw",
   "scissors", "scorpion", "see saw", "sink", "skateboard", "skull",
   "snail", "snorkel", "snowflake", "snowman", "sock", "stairs",
   "star", "stethoscope", "stitches", "stop sign", "strawberry",
   "sun", "swing set", "sword", "teapot", "television",
   "tennis racquet", "The Eiffel Tower", "The Mona Lisa", "tooth",
   "traffic light", "triangle", "t-shirt", "umbrella", "vase",
   "whale", "windmill", "wine bottle", "wine glass", "wristwatch"]

/-- Embedding of src/dataset.py line 131, verbatim:
`categories_to_exclude = [words_to_exclude.index(w) for w in words_to_exclude]`
— each excluded word is looked up in `words_to_exclude` itself, not in
the category list. -/
def categories_to_exclude : List ℕ :=
  words_to_exclude.map (fun w => words_to_exclude.indexOf w)

/-- Embedding of src/dataset.py lines 133-136: drop every record whose category id
is in `categories_to_exclude` (the boolean mask applied to the three
parallel arrays). -/
def excludeFilter (records : List SampleRecord) : List SampleRecord :=
  records.filter (fun r => ! categories_to_exclude.contains r.category)

/-- Embedding of src/dataset.py lines 138-153: the stratified train/validation split
and the optional unrecognized-sample filter.  `split` abstracts
sklearn's `train_test_split`; its arguments are the records, the
stratification labels, the test size and the random seed, exactly the
arguments the source passes (`stratify=data_category`,
`random_state=42`).  The validation side is returned untouched (the
source discards `val_recognized`); when `train_on_unrecognized` is
false the training side keeps only recognized records. -/
def trainValSplit
    (split : List SampleRecord → List ℕ → ℚ → ℕ → List SampleRecord × List SampleRecord)
    (testSize : ℚ) (trainOnUnrecognized : Bool) (records : List SampleRecord) :
    List SampleRecord × List SampleRecord :=
  let p := split records (records.map SampleRecord.category) testSize 42
  (if trainOnUnrecognized then p.1 else p.1.filter (fun r => r.recognized), p.2)

/-! ## src/dataset.py `TrainDataProvider`: the prefetch queue -/

/-- The provider's mutable state: the once-shuffled shard order, the
index of the next shard to request, and the FIFO list of outstanding
requests (each embedded by the shard id it will resolve to). -/
structure ProviderState where
  shards : List ℕ
  nextShardIndex : ℕ
  requests : List ℕ
deriving DecidableEq

/-- Embedding of src/dataset.py lines 56-69 `request_data`: append a request for
`shards[next_shard_index]` and advance the index cyclically; `none`
models the `IndexError` on an empty shard list. -/
def request_data (st : ProviderState) : Option ProviderState :=
  match st.shards[st.nextShardIndex]? with
  | none => none
  | some s =>
    some { st with requests := st.requests ++ [s],
                   nextShardIndex := (st.nextShardIndex + 1) % st.shards.length }

/-- Iteration of `request_data` (the constructor's preload loop). -/
def iterateRequests : ℕ → ProviderState → Option ProviderState
  | 0, st => some st
  | n + 1, st => (request_data st).bind (iterateRequests n)

/-- Embedding of src/dataset.py lines 14-39 `__init__`: `num_shard_preload` requests
are placed before the first `get_next`.  The post-shuffle shard order is
a parameter. -/
def initProvider (shards : List ℕ) (numShardPreload : ℕ) : Option ProviderState :=
  iterateRequests numShardPreload ⟨shards, 0, []⟩

/-- Embedding of src/dataset.py lines 41-54 `get_next`: place a replacement request,
then block on and remove the oldest outstanding request
(`self.requests.pop(0).get()`), returning its data. -/
def get_next (st : ProviderState) : Option (ℕ × ProviderState) :=
  (request_data st).bind fun st1 =>
    match st1.requests with
    | [] => none
    | r :: rest => some (r, { st1 with requests := rest })

/-- A sequence of `get_next` calls, keeping only the provider state. -/
def runGetNext : ℕ → ProviderState → Option ProviderState
  | 0, st => some st
  | n + 1, st => (get_next st).bind fun p => runGetNext n p.2

/-! ## src/train.py `evaluate` -/

/-- The per-batch quantities `evaluate` accumulates, produced by the
model, the criterion and the metric kernels (external collaborators). -/
structure BatchEval where
  loss : ℚ
  mapkv : ℚ
  accuracyTop1 : ℚ
  accuracyTop3 : ℚ
  accuracyTop5 : ℚ
  accuracyTop10 : ℚ
deriving DecidableEq

/-- The six epoch-level averages `evaluate` returns. -/
structure EvalResult where
  lossAvg : ℚ
  mapkAvg : ℚ
  accuracyTop1Avg : ℚ
  accuracyTop3Avg : ℚ
  accuracyTop5Avg : ℚ
  accuracyTop10Avg : ℚ
deriving DecidableEq

/-- Embedding of src/train.py lines 69-105: sums over the batches divided by
`step_count`, with no guard on the count; `none` models the
`ZeroDivisionError` Python raises when the loader yields no batch. -/
def evaluate (batches : List BatchEval) : Option EvalResult :=
  let stepCount := batches.length
  if stepCount = 0 then none
  else some
    { lossAvg := (batches.map BatchEval.loss).sum / stepCount
      mapkAvg := (batches.map BatchEval.mapkv).sum / stepCount
      accuracyTop1Avg := (batches.map BatchEval.accuracyTop1).sum / stepCount
      accuracyTop3Avg := (batches.map BatchEval.accuracyTop3).sum / stepCount
      accuracyTop5Avg := (batches.map BatchEval.accuracyTop5).sum / stepCount
      accuracyTop10Avg := (batches.map BatchEval.accuracyTop10).sum / stepCount }

/-! ## src/train.py `load_ensemble_model`: top-K selection

The candidate checkpoints enter as `(score, model)` pairs — the score
is what `evaluate` returns for the re-evaluated checkpoint, the model
an opaque tag.  `score_to_model` is a Python dict keyed by the score,
embedded as an association list in insertion order (Python dicts keep
insertion order; assigning an existing key replaces the value in
place). -/

/-- Assignment `d[k] = v` on a Python dict embedded as an association
list. -/
def dictInsert (d : List (ℚ × ℕ)) (k : ℚ) (v : ℕ) : List (ℚ × ℕ) :=
  if d.any (fun p => decide (p.1 = k)) then
    d.map (fun p => if p.1 = k then (k, v) else p)
  else d ++ [(k, v)]

/-- Deletion `del d[k]` on the embedded dict. -/
def dictDelete (d : List (ℚ × ℕ)) (k : ℚ) : List (ℚ × ℕ) :=
  d.filter (fun p => ! decide (p.1 = k))

/-- Python's `min(d.keys())`, `none` for the empty dict (where Python
raises `ValueError`). -/
def minKey : List (ℚ × ℕ) → Option ℚ
  | [] => none
  | p :: t =>
    match minKey t with
    | none => some p.1
    | some m => some (min p.1 m)

/-- Embedding of src/train.py lines 204-207, one candidate:
`if len(score_to_model) < ensemble_model_count or min(score_to_model.keys()) < val_mapk_avg:`
then delete the minimum key when already full and insert the candidate. -/
def ensembleStep (K : ℕ) (d : List (ℚ × ℕ)) (c : ℚ × ℕ) : Option (List (ℚ × ℕ)) :=
  if d.length < K then some (dictInsert d c.1 c.2)
  else
    match minKey d with
    | none => none
    | some m => if m < c.1 then some (dictInsert (dictDelete d m) c.1 c.2) else some d

/-- Embedding of src/train.py lines 190-214, the selection loop of
`load_ensemble_model` over the evaluated candidates. -/
def load_ensemble_model (K : ℕ) (candidates : List (ℚ × ℕ)) :
    Option (List (ℚ × ℕ)) :=
  candidates.foldlM (ensembleStep K) []

/-! ## Concrete instances used by witnesses and counterexamples -/

/-- Configuration of the SGDR scenario of spec §8: `cycle_length = 5`,
no prolongation, `cycle_end_patience = 1`. -/
def scenarioConfig : TrainConfig :=
  ⟨5, mkRat 1 1, 0, 1, 0⟩

/-- Score trace realizing "no improvement for 2 epochs at epoch 5": the
model improves at 1-based epochs 1-3 and stalls from epoch 4 on, so
after the evaluation of epoch 5 the last global improvement is 2 epochs
old. -/
def scenarioInputs : List EpochInput :=
  [⟨mkRat 1 10, 1⟩, ⟨mkRat 2 10, 1⟩, ⟨mkRat 3 10, 1⟩,
   ⟨mkRat 1 4, 1⟩, ⟨mkRat 1 4, 1⟩, ⟨mkRat 1 4, 1⟩]

/-- Configuration with `sgdr_cycle_epochs_mult = 1.5` (a float the
binary representation holds exactly), `cycle_length = 5`. -/
def restartConfig : TrainConfig :=
  ⟨5, mkRat 3 2, 0, 1, 0⟩

/-- A mid-run state at 0-based epoch 4 whose cycle (length 5) is
complete and whose last improvement is 2 epochs old, so the restart
fires at this epoch. -/
def restartState : TrainState :=
  ⟨4, some (mkRat 3 10), some (mkRat 3 10), 100, 5, 5, 0, 0, 2, some none, false, false⟩

/-- Epoch observation that does not improve on `restartState`. -/
def restartInput : EpochInput :=
  ⟨mkRat 1 4, 7⟩

/-- A stand-in for sklearn's `train_test_split` used to instantiate the
abstract split parameter of `trainValSplit` at a concrete input. -/
def splitExample :
    List SampleRecord → List ℕ → ℚ → ℕ → List SampleRecord × List SampleRecord :=
  fun rs _ _ _ => (rs.drop 1, rs.take 1)

/-- Concrete shard records, one recognized and one not. -/
def recordsExample : List SampleRecord :=
  [⟨200, 0, true⟩, ⟨201, 1, false⟩, ⟨200, 2, false⟩]

end Quickdraw

namespace Quickdraw

/-! ## Field behaviour of one epoch step -/

theorem epochStep_epoch (cfg : TrainConfig) (st : TrainState) (x : EpochInput) :
    (epochStep cfg st x).epoch = st.epoch + 1 := by
  simp only [epochStep, resetPhase, evalPhase, globalCheck, cycleCheck, trainPass]
  split_ifs <;> rfl

theorem epochStep_globalBest (cfg : TrainConfig) (st : TrainState) (x : EpochInput) :
    (epochStep cfg st x).globalBest =
      if ltInf st.globalBest x.score then some x.score else st.globalBest := by
  simp only [epochStep, resetPhase, evalPhase, globalCheck, cycleCheck, trainPass]
  split_ifs <;> simp_all

theorem epochStep_modelPth (cfg : TrainConfig) (st : TrainState) (x : EpochInput) :
    (epochStep cfg st x).modelPth =
      if ltInf st.globalBest x.score then some (some st.epoch) else st.modelPth := by
  simp only [epochStep, resetPhase, evalPhase, globalCheck, cycleCheck, trainPass]
  split_ifs <;> simp_all

theorem epochStep_lastCkptSaved (cfg : TrainConfig) (st : TrainState) (x : EpochInput) :
    (epochStep cfg st x).lastCkptSaved = ltInf st.globalBest x.score := by
  simp only [epochStep, resetPhase, evalPhase, globalCheck, cycleCheck, trainPass]
  split_ifs <;> simp_all

theorem runTrain_nil (cfg : TrainConfig) : runTrain cfg [] = initState cfg := rfl

theorem runTrain_append (cfg : TrainConfig) (l : List EpochInput) (x : EpochInput) :
    runTrain cfg (l ++ [x]) = epochStep cfg (runTrain cfg l) x := by
  simp [runTrain, List.foldl_append]

/-! ## Properties of `listMax` -/

theorem listMax_none_iff (l : List ℚ) : listMax l = none ↔ l = [] := by
  cases l with
  | nil => simp [listMax]
  | cons s t =>
    constructor
    · intro h
      cases ht : listMax t <;> simp [listMax, ht] at h
    · intro h
      exact absurd h (by simp)

theorem listMax_append_none (l : List ℚ) (x : ℚ) (h : listMax l = none) :
    listMax (l ++ [x]) = some x := by
  rw [(listMax_none_iff l).mp h]
  rfl

theorem listMax_append_some (l : List ℚ) (x m : ℚ) (h : listMax l = some m) :
    listMax (l ++ [x]) = some (max m x) := by
  induction l generalizing m with
  | nil => simp [listMax] at h
  | cons s t ih =>
    cases ht : listMax t with
    | none =>
      have : t = [] := (listMax_none_iff t).mp ht
      subst this
      simp only [listMax, ht] at h
      injection h with h
      subst h
      rfl
    | some mt =>
      simp only [listMax, ht] at h
      injection h with h
      subst h
      have hx := ih mt ht
      show (match listMax (t ++ [x]) with
        | none => some s
        | some m => some (max s m)) = some (max (max s mt) x)
      rw [hx, max_assoc]

theorem listMax_ub (l : List ℚ) (m : ℚ) (h : listMax l = some m) :
    ∀ s ∈ l, s ≤ m := by
  induction l generalizing m with
  | nil => simp
  | cons a t ih =>
    intro s hs
    cases ht : listMax t with
    | none =>
      have : t = [] := (listMax_none_iff t).mp ht
      subst this
      simp only [listMax, ht] at h
      injection h with h
      simp at hs
      simp [hs, h]
    | some mt =>
      simp only [listMax, ht] at h
      injection h with h
      rcases List.mem_cons.mp hs with hsa | hst
      · subst hsa
        rw [← h]
        exact le_max_left _ _
      · calc s ≤ mt := ih mt ht s hst
          _ ≤ max a mt := le_max_right _ _
          _ = m := h

theorem scoresOf_append (l : List EpochInput) (x : EpochInput) :
    scoresOf (l ++ [x]) = scoresOf l ++ [x.score] := by
  simp [scoresOf]

theorem scoresOf_getElem? (l : List EpochInput) (j : ℕ) (xj : EpochInput)
    (h : l[j]? = some xj) : (scoresOf l)[j]? = some xj.score := by
  simp [scoresOf, h]

/-! ## The run invariant: epoch counter, best score and checkpoint -/

theorem runTrain_invariant (cfg : TrainConfig) (l : List EpochInput) :
    (runTrain cfg l).epoch = l.length ∧
    (runTrain cfg l).globalBest = listMax (scoresOf l) ∧
    ∃ w, (runTrain cfg l).modelPth = some w ∧ HoldsBestEpoch l w := by
  induction l using List.reverseRecOn with
  | nil =>
    refine ⟨rfl, rfl, none, rfl, rfl⟩
  | append_singleton l x ih =>
    obtain ⟨hep, hgb, w, hmp, hbest⟩ := ih
    rw [runTrain_append]
    by_cases himp : ltInf (runTrain cfg l).globalBest x.score = true
    · -- the epoch strictly improves on the global best
      have hmax : listMax (scoresOf (l ++ [x])) = some x.score := by
        rw [scoresOf_append]
        cases hlm : listMax (scoresOf l) with
        | none => exact listMax_append_none _ _ hlm
        | some m =>
          rw [hgb, hlm] at himp
          have hlt : m < x.score := of_decide_eq_true himp
          rw [listMax_append_some _ _ _ hlm, max_eq_right hlt.le]
      refine ⟨?_, ?_, some l.length, ?_, ?_⟩
      · rw [epochStep_epoch, hep]
        simp
      · rw [epochStep_globalBest, if_pos himp, hmax]
      · rw [epochStep_modelPth, if_pos himp, hep]
      · refine ⟨x, List.getElem?_concat_length l x, hmax, ?_⟩
        intro j xj hj hjs
        by_contra hlt
        push_neg at hlt
        rw [List.getElem?_append_left hlt] at hj
        cases hlm : listMax (scoresOf l) with
        | none =>
          have : l = [] := by
            have := (listMax_none_iff _).mp hlm
            simpa [scoresOf] using this
          subst this
          simp at hj
        | some m =>
          rw [hgb, hlm] at himp
          have hmlt : m < x.score := of_decide_eq_true himp
          have : xj.score ≤ m :=
            listMax_ub _ _ hlm _ (List.getElem?_mem (scoresOf_getElem? l j xj hj))
          rw [hjs] at this
          exact absurd (lt_of_le_of_lt this hmlt) (lt_irrefl _)
      -- the epoch does not improve: nothing about the checkpoint changes
    · have hkeep : (epochStep cfg (runTrain cfg l) x).globalBest =
          (runTrain cfg l).globalBest := by
        rw [epochStep_globalBest, if_neg himp]
      obtain ⟨m, hlm, hle⟩ : ∃ m, listMax (scoresOf l) = some m ∧ x.score ≤ m := by
        cases hlm : listMax (scoresOf l) with
        | none => exact absurd (by rw [hgb, hlm]; rfl) himp
        | some m =>
          refine ⟨m, rfl, ?_⟩
          rw [hgb, hlm] at himp
          simpa [ltInf] using himp
      have hmax : listMax (scoresOf (l ++ [x])) = some m := by
        rw [scoresOf_append, listMax_append_some _ _ _ hlm, max_eq_left hle]
      have hne : l ≠ [] := by
        intro h
        subst h
        simp [listMax] at hlm
      refine ⟨?_, ?_, w, ?_, ?_⟩
      · rw [epochStep_epoch, hep]
        simp
      · rw [hkeep, hgb, hlm, hmax]
      · rw [epochStep_modelPth, if_neg himp, hmp]
      · cases w with
        | none => exact absurd hbest hne
        | some e =>
          obtain ⟨xe, hxe, hxm, hmin⟩ := hbest
          have helt : e < l.length := (List.getElem?_eq_some.mp hxe).1
          refine ⟨xe, ?_, ?_, ?_⟩
          · rw [List.getElem?_append_left helt]
            exact hxe
          · have hxm2 : xe.score = m := by
              rw [hxm] at hlm
              injection hlm
            rw [hmax, hxm2]
          · intro j xj hj hjs
            by_cases hjl : j < l.length
            · rw [List.getElem?_append_left hjl] at hj
              exact hmin j xj hj hjs
            · exact le_trans helt.le (not_lt.mp hjl)

theorem ratMul_eq_mul (a b : ℚ) : ratMul a b = a * b := by
  rw [ratMul, Rat.mkRat_eq_div]
  push_cast
  rw [← div_mul_div_comm, Rat.num_div_den, Rat.num_div_den]

theorem intToRat_eq_cast (n : ℤ) : intToRat n = (n : ℚ) := by
  rw [intToRat, Rat.mkRat_eq_div]
  simp

theorem evalPhase_sgdrCycleCount (st : TrainState) (x : EpochInput) :
    (evalPhase st x).sgdrCycleCount = st.sgdrCycleCount := by
  simp only [evalPhase, globalCheck, cycleCheck, trainPass]
  split_ifs <;> rfl

theorem evalPhase_ensembleModelIndex (st : TrainState) (x : EpochInput) :
    (evalPhase st x).ensembleModelIndex = st.ensembleModelIndex := by
  simp only [evalPhase, globalCheck, cycleCheck, trainPass]
  split_ifs <;> rfl

theorem evalPhase_currentCycleEpochs (st : TrainState) (x : EpochInput) :
    (evalPhase st x).currentCycleEpochs = st.currentCycleEpochs := by
  simp only [evalPhase, globalCheck, cycleCheck, trainPass]
  split_ifs <;> rfl

/-- C2 (amended): whenever the SGDR restart fires during an epoch step,
the cycle index advances by exactly 1, the in-cycle best score resets to
`-inf` (`none`), the in-cycle iteration counter resets to 0, the
per-cycle checkpoint slot advances by 1, and the new cycle length is the
Python `int(...)` truncation — not `round` — of the old cycle length
times the cycle multiplier. -/
theorem sgdr_restart_effects (cfg : TrainConfig) (st : TrainState) (x : EpochInput)
    (h : (epochStep cfg st x).lastReset = true) :
    (epochStep cfg st x).sgdrCycleCount = st.sgdrCycleCount + 1 ∧
    (epochStep cfg st x).cycleBest = none ∧
    (epochStep cfg st x).sgdrIterations = 0 ∧
    (epochStep cfg st x).ensembleModelIndex = st.ensembleModelIndex + 1 ∧
    (epochStep cfg st x).currentCycleEpochs =
      pyTrunc ((st.currentCycleEpochs : ℚ) * cfg.sgdrCycleEpochsMult) := by
  by_cases hc : restartCond cfg (evalPhase st x) = true
  · refine ⟨?_, ?_, ?_, ?_, ?_⟩ <;>
      simp only [epochStep, resetPhase, if_pos hc, evalPhase_sgdrCycleCount,
        evalPhase_ensembleModelIndex, evalPhase_currentCycleEpochs,
        ratMul_eq_mul, intToRat_eq_cast]
  · exfalso
    simp only [epochStep, resetPhase, if_neg hc] at h
    exact Bool.false_ne_true h

/-- Witness: the restart effects at a concrete state where the restart
fires. -/
theorem sgdr_restart_effects_witness :
    (epochStep restartConfig restartState restartInput).sgdrCycleCount =
        restartState.sgdrCycleCount + 1 ∧
    (epochStep restartConfig restartState restartInput).cycleBest = none ∧
    (epochStep restartConfig restartState restartInput).sgdrIterations = 0 ∧
    (epochStep restartConfig restartState restartInput).ensembleModelIndex =
        restartState.ensembleModelIndex + 1 ∧
    (epochStep restartConfig restartState restartInput).currentCycleEpochs =
      pyTrunc ((restartState.currentCycleEpochs : ℚ) * restartConfig.sgdrCycleEpochsMult) :=
  sgdr_restart_effects restartConfig restartState restartInput (by decide)

/-- C2 (counterexample): with cycle length 5 and multiplier 1.5 a
restart fires, and the new cycle length is `int(5 * 1.5) = 7`, while
`round(5 * 1.5) = 8` — so the claim's `round` law fails on the code. -/
theorem sgdr_restart_round_counterexample :
    (epochStep restartConfig restartState restartInput).lastReset = true ∧
    (epochStep restartConfig restartState restartInput).currentCycleEpochs = 7 ∧
    round ((restartState.currentCycleEpochs : ℚ) * restartConfig.sgdrCycleEpochsMult) = 8 ∧
    (epochStep restartConfig restartState restartInput).currentCycleEpochs ≠
      round ((restartState.currentCycleEpochs : ℚ) * restartConfig.sgdrCycleEpochsMult) := by
  have h52 : ((restartState.currentCycleEpochs : ℚ) * restartConfig.sgdrCycleEpochsMult) =
      (15 : ℚ) / 2 := by
    norm_num [restartState, restartConfig, Rat.mkRat_eq_div]
  have hround : round ((15 : ℚ) / 2) = 8 := by
    norm_num [round_eq]
  have h7 : (epochStep restartConfig restartState restartInput).currentCycleEpochs = 7 := by
    decide
  refine ⟨by decide, h7, ?_, ?_⟩
  · rw [h52, hround]
  · intro hcontra
    rw [h52, hround, h7] at hcontra
    exact absurd hcontra (by decide)

/-- C6 (counterexample): in the spec §8 scenario — `cycle_length = 5`,
no prolongation, `cycle_end_patience = 1`, no improvement for 2 epochs
at epoch 5 (the last improvement was at 1-based epoch 3, 0-based index
2) — the restart fires AT 1-based epoch 5, refuting the claim that it
does not fire at epoch 5. -/
theorem sgdr_patience_scenario_counterexample :
    (runTrain scenarioConfig (scenarioInputs.take 5)).epochOfLastImproval = 2 ∧
    (runTrain scenarioConfig (scenarioInputs.take 5)).epoch = 5 ∧
    (runTrain scenarioConfig (scenarioInputs.take 5)).lastReset = true := by
  decide

/-- C6 (amended): in the same scenario the restart fires at 1-based
epoch 5 — the first epoch where both the cycle-end condition and the
patience condition hold — and fires neither at epoch 4 nor at
epoch 6. -/
theorem sgdr_patience_scenario_amended :
    (runTrain scenarioConfig (scenarioInputs.take 4)).lastReset = false ∧
    (runTrain scenarioConfig (scenarioInputs.take 5)).lastReset = true ∧
    (runTrain scenarioConfig scenarioInputs).lastReset = false := by
  decide

theorem leInf_refl (a : Option ℚ) : leInf a a := by
  cases a <;> simp [leInf]

/-- C1: for every run and every abort point of the training loop (every
prefix `l` of the per-epoch observations), the best-ever checkpoint
`model.pth` holds the weights of the epoch with the highest validation
mAP observed so far (`HoldsBestEpoch`), the recorded best-ever score
equals the maximum score observed and is monotonically non-decreasing
under one more epoch, and `model.pth` is overwritten in an epoch
(`ckpt_saved`) if and only if that epoch's validation mAP strictly
exceeds the previous global best. -/
theorem best_checkpoint_invariant (cfg : TrainConfig) (l : List EpochInput)
    (x : EpochInput) :
    (runTrain cfg l).globalBest = listMax (scoresOf l) ∧
    leInf (runTrain cfg l).globalBest (runTrain cfg (l ++ [x])).globalBest ∧
    (∃ w, (runTrain cfg l).modelPth = some w ∧ HoldsBestEpoch l w) ∧
    (runTrain cfg (l ++ [x])).lastCkptSaved = ltInf (runTrain cfg l).globalBest x.score := by
  obtain ⟨hep, hgb, hw⟩ := runTrain_invariant cfg l
  refine ⟨hgb, ?_, hw, ?_⟩
  · rw [runTrain_append, epochStep_globalBest]
    by_cases himp : ltInf (runTrain cfg l).globalBest x.score = true
    · rw [if_pos himp]
      cases hb : (runTrain cfg l).globalBest with
      | none => exact trivial
      | some m =>
        rw [hb] at himp
        exact le_of_lt (of_decide_eq_true himp)
    · rw [if_neg himp]
      exact leInf_refl _
  · rw [runTrain_append, epochStep_lastCkptSaved]

/-- C10: `model.pth` is written unconditionally before the first epoch
(line 303 of src/train.py), and after any number of epochs — improving
or not — the file still exists. -/
theorem model_pth_always_exists (cfg : TrainConfig) (l : List EpochInput) :
    (initState cfg).modelPth = some none ∧
    ((runTrain cfg l).modelPth).isSome = true := by
  refine ⟨rfl, ?_⟩
  obtain ⟨-, -, w, hw, -⟩ := runTrain_invariant cfg l
  rw [hw]
  rfl

/-! ## Category exclusion (C3) -/

set_option maxRecDepth 100000 in
/-- C3 (evaluation at the failing input): `categories_to_exclude` is
built by looking every excluded word up in `words_to_exclude` itself,
so it is `[0, 1, ..., 101]` — the position of each name in the
exclusion list, not in the category list.  A shard holding the category
ids {0, 1, 2} therefore loses all three records (the claim expects the
records of categories 0 and 2 to survive an exclusion list containing
category 1), while any record with id ≥ 102 survives no matter what its
category name is.  The five-name trim of `read_categories` (a different
set) behaves as documented. -/
theorem category_exclusion_self_index :
    categories_to_exclude = List.range words_to_exclude.length ∧
    excludeFilter [⟨0, 0, true⟩, ⟨1, 1, true⟩, ⟨2, 2, true⟩] = [] ∧
    excludeFilter [⟨102, 0, true⟩] = [⟨102, 0, true⟩] ∧
    read_categories
        ["aircraft carrier", "airplane", "knife", "lighter", "rifle", "syringe", "zebra"] =
      some ["airplane", "zebra"] := by
  refine ⟨by decide, by decide, by decide, by decide⟩

/-! ## Top-K ensemble selection (C4, C9) -/

theorem dictInsert_length_le (d : List (ℚ × ℕ)) (k : ℚ) (v : ℕ) :
    (dictInsert d k v).length ≤ d.length + 1 := by
  unfold dictInsert
  split_ifs with h
  · simp
  · simp

theorem minKey_mem (d : List (ℚ × ℕ)) (m : ℚ) (h : minKey d = some m) :
    m ∈ d.map Prod.fst := by
  induction d generalizing m with
  | nil => simp [minKey] at h
  | cons p t ih =>
    cases ht : minKey t with
    | none =>
      simp only [minKey, ht] at h
      injection h with h
      simp [← h]
    | some mt =>
      simp only [minKey, ht] at h
      injection h with h
      rcases min_cases p.1 mt with ⟨he, -⟩ | ⟨he, -⟩
      · rw [← h, he]
        simp
      · rw [← h, he]
        simp [ih mt ht]

theorem dictDelete_length_lt (d : List (ℚ × ℕ)) (m : ℚ)
    (h : m ∈ d.map Prod.fst) : (dictDelete d m).length < d.length := by
  induction d with
  | nil => simp at h
  | cons p t ih =>
    by_cases hp : p.1 = m
    · have : dictDelete (p :: t) m = dictDelete t m := by
        simp [dictDelete, hp]
      rw [this]
      calc (dictDelete t m).length ≤ t.length := List.length_filter_le _ _
        _ < (p :: t).length := by simp
    · have hmt : m ∈ t.map Prod.fst := by
        rcases List.mem_map.mp h with ⟨q, hq, hq1⟩
        rcases List.mem_cons.mp hq with rfl | hqt
        · exact absurd hq1 hp
        · exact List.mem_map.mpr ⟨q, hqt, hq1⟩
      have : dictDelete (p :: t) m = p :: dictDelete t m := by
        simp [dictDelete, hp]
      rw [this]
      simpa using ih hmt

theorem ensembleStep_length (K : ℕ) (d : List (ℚ × ℕ)) (c : ℚ × ℕ)
    (d' : List (ℚ × ℕ)) (hd : d.length ≤ K)
    (h : ensembleStep K d c = some d') : d'.length ≤ K := by
  unfold ensembleStep at h
  by_cases hl : d.length < K
  · rw [if_pos hl] at h
    injection h with h
    calc d'.length = (dictInsert d c.1 c.2).length := by rw [h]
      _ ≤ d.length + 1 := dictInsert_length_le d c.1 c.2
      _ ≤ K := by omega
  · rw [if_neg hl] at h
    cases hm : minKey d with
    | none =>
      rw [hm] at h
      exact absurd h (by simp)
    | some m =>
      rw [hm] at h
      have h2 : (if m < c.1 then some (dictInsert (dictDelete d m) c.1 c.2)
          else some d) = some d' := h
      by_cases hlt : m < c.1
      · rw [if_pos hlt] at h2
        injection h2 with h
        have h1 := dictDelete_length_lt d m (minKey_mem d m hm)
        calc d'.length = (dictInsert (dictDelete d m) c.1 c.2).length := by rw [h]
          _ ≤ (dictDelete d m).length + 1 := dictInsert_length_le _ c.1 c.2
          _ ≤ K := by omega
      · rw [if_neg hlt] at h2
        injection h2 with h2
        rw [← h2]
        exact hd

theorem ensembleFold_length (K : ℕ) (cs : List (ℚ × ℕ)) :
    ∀ (d d' : List (ℚ × ℕ)), d.length ≤ K →
      List.foldlM (ensembleStep K) d cs = some d' → d'.length ≤ K := by
  induction cs with
  | nil =>
    intro d d' hd h
    simp only [List.foldlM_nil] at h
    injection h with h
    rw [← h]
    exact hd
  | cons c cs ih =>
    intro d d' hd h
    simp only [List.foldlM_cons] at h
    rcases Option.bind_eq_some.mp h with ⟨d1, h1, h2⟩
    exact ih d1 d' (ensembleStep_length K d c d1 hd h1) h2

/-- C4: the dict of retained checkpoints never exceeds
`ensemble_model_count` members; a candidate that does not strictly beat
the minimum-scoring member of a full dict leaves it unchanged; and on
the spec's example — scores [0.1, 0.5, 0.3, 0.9, 0.4] with K = 3 — the
retained members are exactly those scoring {0.5, 0.9, 0.4}. -/
theorem ensemble_topk_selection (K : ℕ) (cs : List (ℚ × ℕ)) :
    (∀ d, load_ensemble_model K cs = some d → d.length ≤ K) ∧
    (∀ (d : List (ℚ × ℕ)) (c : ℚ × ℕ) (m : ℚ), K ≤ d.length → minKey d = some m →
      ¬ m < c.1 → ensembleStep K d c = some d) ∧
    load_ensemble_model 3
        [(mkRat 1 10, 0), (mkRat 1 2, 1), (mkRat 3 10, 2), (mkRat 9 10, 3), (mkRat 2 5, 4)] =
      some [(mkRat 1 2, 1), (mkRat 9 10, 3), (mkRat 2 5, 4)] := by
  refine ⟨?_, ?_, by decide⟩
  · intro d h
    exact ensembleFold_length K cs [] d (by simp) h
  · intro d c m hK hm hnlt
    unfold ensembleStep
    rw [if_neg (show ¬ d.length < K by omega), hm]
    show (if m < c.1 then some (dictInsert (dictDelete d m) c.1 c.2)
        else some d) = some d
    rw [if_neg hnlt]

/-- C9: the retained members are keyed by score, so a candidate whose
score equals an existing key silently replaces that member (the key
count does not grow and the stored model under the key is the later
one), and the resulting ensemble can end up with strictly fewer than
`min(number of candidates, K)` members: two candidates scoring 0.5 with
K = 3 leave a single member. -/
theorem ensemble_score_collision :
    (∀ (d : List (ℚ × ℕ)) (k : ℚ) (v : ℕ), k ∈ d.map Prod.fst →
      (dictInsert d k v).length = d.length ∧
      ∀ p, p ∈ dictInsert d k v → p.1 = k → p.2 = v) ∧
    load_ensemble_model 3 [(mkRat 1 2, 0), (mkRat 1 2, 1)] = some [(mkRat 1 2, 1)] ∧
    ([(mkRat 1 2, 1)] : List (ℚ × ℕ)).length <
      min ([(mkRat 1 2, 0), (mkRat 1 2, 1)] : List (ℚ × ℕ)).length 3 := by
  refine ⟨?_, by decide, by decide⟩
  intro d k v hk
  have hany : d.any (fun p => decide (p.1 = k)) = true := by
    rcases List.mem_map.mp hk with ⟨q, hq, hq1⟩
    exact List.any_eq_true.mpr ⟨q, hq, by simp [hq1]⟩
  constructor
  · rw [dictInsert, if_pos hany]
    simp
  · intro p hp hp1
    rw [dictInsert, if_pos hany] at hp
    rcases List.mem_map.mp hp with ⟨q, -, hq⟩
    by_cases hqk : q.1 = k
    · rw [if_pos hqk] at hq
      rw [← hq]
    · rw [if_neg hqk] at hq
      rw [← hq] at hp1
      exact absurd hp1 hqk

/-! ## The prefetch queue (C5) -/

theorem request_data_some (st : ProviderState)
    (h : st.nextShardIndex < st.shards.length) :
    request_data st = some { st with
      requests := st.requests ++ [st.shards.get ⟨st.nextShardIndex, h⟩],
      nextShardIndex := (st.nextShardIndex + 1) % st.shards.length } := by
  simp only [request_data, List.getElem?_eq_getElem h]
  rfl

theorem get_next_spec (st : ProviderState)
    (h : st.nextShardIndex < st.shards.length) :
    ∃ r st2, get_next st = some (r, st2) ∧ st2.shards = st.shards ∧
      st2.nextShardIndex < st2.shards.length ∧
      st2.requests.length = st.requests.length := by
  obtain ⟨sh, i, reqs⟩ := st
  have h' : i < sh.length := h
  have hmod : (i + 1) % sh.length < sh.length := Nat.mod_lt _ (by omega)
  cases reqs with
  | nil =>
    refine ⟨sh.get ⟨i, h'⟩, ⟨sh, (i + 1) % sh.length, []⟩, ?_, rfl, hmod, rfl⟩
    rw [get_next, request_data_some _ h, Option.some_bind]
    rfl
  | cons q t =>
    refine ⟨q, ⟨sh, (i + 1) % sh.length, t ++ [sh.get ⟨i, h'⟩]⟩, ?_, rfl, hmod, by simp⟩
    rw [get_next, request_data_some _ h, Option.some_bind]
    rfl

theorem get_next_oldest (st : ProviderState) (q : ℕ) (t : List ℕ)
    (p : ℕ × ProviderState) (hreq : st.requests = q :: t)
    (h : get_next st = some p) : p.1 = q := by
  unfold get_next at h
  cases hget : st.shards[st.nextShardIndex]? with
  | none =>
    rw [show request_data st = none by simp [request_data, hget]] at h
    simp at h
  | some s =>
    rw [show request_data st = some { st with
        requests := st.requests ++ [s],
        nextShardIndex := (st.nextShardIndex + 1) % st.shards.length } by
      simp [request_data, hget]] at h
    rw [Option.some_bind] at h
    simp only [hreq, List.cons_append] at h
    injection h with h
    rw [← h]

theorem iterateRequests_spec (k : ℕ) :
    ∀ st : ProviderState, st.nextShardIndex < st.shards.length →
      ∃ st', iterateRequests k st = some st' ∧ st'.shards = st.shards ∧
        st'.nextShardIndex < st'.shards.length ∧
        st'.requests.length = st.requests.length + k := by
  induction k with
  | zero =>
    intro st h
    exact ⟨st, rfl, rfl, h, by simp⟩
  | succ k ih =>
    intro st h
    have hmod : (st.nextShardIndex + 1) % st.shards.length < st.shards.length :=
      Nat.mod_lt _ (by omega)
    rw [show iterateRequests (k + 1) st = (request_data st).bind (iterateRequests k) from rfl,
      request_data_some st h, Option.some_bind]
    have hmod' : ({ st with
        requests := st.requests ++ [st.shards.get ⟨st.nextShardIndex, h⟩],
        nextShardIndex := (st.nextShardIndex + 1) % st.shards.length } :
          ProviderState).nextShardIndex <
        ({ st with
          requests := st.requests ++ [st.shards.get ⟨st.nextShardIndex, h⟩],
          nextShardIndex := (st.nextShardIndex + 1) % st.shards.length } :
            ProviderState).shards.length := hmod
    obtain ⟨st', h1, h2, h3, h4⟩ := ih _ hmod'
    refine ⟨st', h1, h2, h3, ?_⟩
    rw [h4]
    simp
    omega

theorem runGetNext_spec (n : ℕ) :
    ∀ st : ProviderState, st.nextShardIndex < st.shards.length →
      ∃ st', runGetNext n st = some st' ∧ st'.shards = st.shards ∧
        st'.nextShardIndex < st'.shards.length ∧
        st'.requests.length = st.requests.length := by
  induction n with
  | zero =>
    intro st h
    exact ⟨st, rfl, rfl, h, rfl⟩
  | succ n ih =>
    intro st h
    obtain ⟨r, st2, hg, hsh, hidx, hlen⟩ := get_next_spec st h
    rw [show runGetNext (n + 1) st = (get_next st).bind (fun p => runGetNext n p.2) from rfl,
      hg, Option.some_bind]
    obtain ⟨st', h1, h2, h3, h4⟩ := ih st2 hidx
    exact ⟨st', h1, h2.trans hsh, h3, h4.trans hlen⟩

/-- C5: after construction the provider has `num_shard_preload`
outstanding requests, and every `get_next` call first enqueues a
replacement request and then removes (and returns) the oldest
outstanding one — so after any sequence of `get_next` calls the number
of outstanding prefetch requests is again exactly `num_shard_preload`. -/
theorem prefetch_depth_invariant (shards : List ℕ) (numShardPreload n : ℕ)
    (h : shards ≠ []) :
    (∃ st0 st, initProvider shards numShardPreload = some st0 ∧
      st0.requests.length = numShardPreload ∧
      runGetNext n st0 = some st ∧
      st.requests.length = numShardPreload) ∧
    (∀ (st : ProviderState) (q : ℕ) (t : List ℕ) (p : ℕ × ProviderState),
      st.requests = q :: t → get_next st = some p → p.1 = q) := by
  refine ⟨?_, fun st q t p hreq hg => get_next_oldest st q t p hreq hg⟩
  have h0 : (⟨shards, 0, []⟩ : ProviderState).nextShardIndex < shards.length := by
    cases shards with
    | nil => exact absurd rfl h
    | cons a l => simp
  obtain ⟨st0, h1, h2, h3, h4⟩ := iterateRequests_spec numShardPreload _ h0
  obtain ⟨st, h5, h6, h7, h8⟩ := runGetNext_spec n st0 h3
  refine ⟨st0, st, h1, ?_, h5, ?_⟩
  · simpa using h4
  · rw [h8]
    simpa using h4

/-- Witness for C5 at a concrete provider: two shards, preload depth 1,
three rotations. -/
theorem prefetch_depth_invariant_witness :
    (∃ st0 st, initProvider [0, 1] 1 = some st0 ∧
      st0.requests.length = 1 ∧
      runGetNext 3 st0 = some st ∧
      st.requests.length = 1) ∧
    (∀ (st : ProviderState) (q : ℕ) (t : List ℕ) (p : ℕ × ProviderState),
      st.requests = q :: t → get_next st = some p → p.1 = q) :=
  prefetch_depth_invariant [0, 1] 1 3 (by decide)

/-! ## The stratified split and the unrecognized-sample filter (C7) -/

/-- C7: the split of `TrainData.__init__` calls the (stratified)
splitter at the fixed seed 42 with the record categories as the
stratification labels, so two runs whose splitter behaves the same at
seed 42 produce identical splits; the validation side is returned
untouched (it always retains unrecognized samples); the training side
is filtered down to recognized samples exactly when
`train_on_unrecognized` is off; and the two sides partition the shard
whenever the splitter does. -/
theorem stratified_split_deterministic
    (split split2 :
      List SampleRecord → List ℕ → ℚ → ℕ → List SampleRecord × List SampleRecord)
    (testSize : ℚ) (records : List SampleRecord)
    (h42 : ∀ rs labels ts, split rs labels ts 42 = split2 rs labels ts 42)
    (hpart : ((split records (records.map SampleRecord.category) testSize 42).1 ++
        (split records (records.map SampleRecord.category) testSize 42).2).Perm records) :
    (∀ flag, trainValSplit split testSize flag records =
      trainValSplit split2 testSize flag records) ∧
    (∀ flag, (trainValSplit split testSize flag records).2 =
      (split records (records.map SampleRecord.category) testSize 42).2) ∧
    (trainValSplit split testSize false records).1 =
      ((split records (records.map SampleRecord.category) testSize 42).1).filter
        (fun r => r.recognized) ∧
    (trainValSplit split testSize true records).1 =
      (split records (records.map SampleRecord.category) testSize 42).1 ∧
    ((trainValSplit split testSize true records).1 ++
      (trainValSplit split testSize true records).2).Perm records := by
  refine ⟨?_, ?_, rfl, rfl, ?_⟩
  · intro flag
    simp [trainValSplit, h42]
  · intro flag
    cases flag <;> rfl
  · simpa [trainValSplit] using hpart

/-- Witness for C7 at a concrete splitter and shard. -/
theorem stratified_split_deterministic_witness :
    (∀ flag, trainValSplit splitExample (mkRat 1 10) flag recordsExample =
      trainValSplit splitExample (mkRat 1 10) flag recordsExample) ∧
    (∀ flag, (trainValSplit splitExample (mkRat 1 10) flag recordsExample).2 =
      (splitExample recordsExample (recordsExample.map SampleRecord.category)
        (mkRat 1 10) 42).2) ∧
    (trainValSplit splitExample (mkRat 1 10) false recordsExample).1 =
      ((splitExample recordsExample (recordsExample.map SampleRecord.category)
        (mkRat 1 10) 42).1).filter (fun r => r.recognized) ∧
    (trainValSplit splitExample (mkRat 1 10) true recordsExample).1 =
      (splitExample recordsExample (recordsExample.map SampleRecord.category)
        (mkRat 1 10) 42).1 ∧
    ((trainValSplit splitExample (mkRat 1 10) true recordsExample).1 ++
      (trainValSplit splitExample (mkRat 1 10) true recordsExample).2).Perm
      recordsExample :=
  stratified_split_deterministic splitExample splitExample (mkRat 1 10) recordsExample
    (fun _ _ _ => rfl) (by decide)

/-! ## Evaluation over a data loader (C8) -/

/-- C8: `evaluate` divides each accumulated per-batch sum by the number
of batches with no guard on that count: on an empty loader the division
by `step_count = 0` is undefined (the embedded `evaluate` returns
`none`, modelling Python's `ZeroDivisionError`), and on any non-empty
loader it returns exactly the per-batch sums divided by the batch
count. -/
theorem evaluate_requires_batches :
    evaluate [] = none ∧
    (∀ bs : List BatchEval, bs ≠ [] →
      evaluate bs = some
        { lossAvg := (bs.map BatchEval.loss).sum / bs.length
          mapkAvg := (bs.map BatchEval.mapkv).sum / bs.length
          accuracyTop1Avg := (bs.map BatchEval.accuracyTop1).sum / bs.length
          accuracyTop3Avg := (bs.map BatchEval.accuracyTop3).sum / bs.length
          accuracyTop5Avg := (bs.map BatchEval.accuracyTop5).sum / bs.length
          accuracyTop10Avg := (bs.map BatchEval.accuracyTop10).sum / bs.length }) ∧
    (∀ bs : List BatchEval, (evaluate bs).isSome = true ↔ bs ≠ []) := by
  refine ⟨rfl, ?_, ?_⟩
  · intro bs hbs
    rw [evaluate]
    rw [if_neg (by simpa using hbs)]
  · intro bs
    constructor
    · intro h hbs
      subst hbs
      simp [evaluate] at h
    · intro hbs
      rw [evaluate, if_neg (by simpa using hbs)]
      rfl

end Quickdraw
